import Mathlib

/-!
Verification of the `shader_loader` preprocessor/provenance core.

Shallow embedding conventions:
* Rust `String`/`&str` text is modelled as `List Char` (abbreviated `Str`);
  string literals are injected with `String.toList`.
* `Vec<T>` is `List T`; `HashSet<String>` is a `List Str` used as a set
  (insertion is guarded by membership, only membership is ever observed).
* Fallible Rust functions returning `Result<T, String>` become
  `Except Str T`.
* `usize` arithmetic is `Nat` except where the source can underflow:
  `FileIncludes.file_and_line_at` accumulates its local line in `Int`
  (exact arithmetic; a negative value marks a `usize` underflow, which
  panics in debug builds and wraps modulo 2^64 in release builds).
* The recursive include resolver takes explicit fuel; the source recursion
  is bounded by the include-nesting depth, so every concrete run below is
  evaluated with enough fuel.
-/

set_option autoImplicit false

namespace ShaderLoader

abbrev Str := List Char

/-- Split a char list at every separator accepted by `p`
(the model of Rust `str::split`): always returns at least one piece. -/
def splitOnPred (p : Char → Bool) : Str → List Str
  | [] => [[]]
  | c :: cs =>
    if p c then
      [] :: splitOnPred p cs
    else
      match splitOnPred p cs with
      | [] => [[c]]
      | h :: t => (c :: h) :: t

/-- Join pieces with a single separator char (the model of `Vec::join`
and of building a path string with `/` separators). -/
def joinSep (sep : Char) : List Str → Str
  | [] => []
  | [c] => c
  | c :: cs => c ++ sep :: joinSep sep cs

/-- Model of `Vec::remove(i)`.  The source panics when `i` is out of
range; all call sites below are in range, where this equals the splice
`take i ++ drop (i+1)`. -/
def removeAt {α : Type} : List α → Nat → List α
  | [], _ => []
  | _ :: xs, 0 => xs
  | x :: xs, n + 1 => x :: removeAt xs n

/-- Model of `Vec::insert(i, a)`.  The source panics when `i > len`; all
call sites below satisfy `i ≤ len`, where this equals
`take i ++ a :: drop i`. -/
def listInsert {α : Type} : List α → Nat → α → List α
  | l, 0, a => a :: l
  | [], _ + 1, a => [a]
  | x :: xs, n + 1, a => x :: listInsert xs n a

/-- The source's insertion loop
`for (i, new_line) in new.enumerate() { lines.insert(i + pos, new_line) }`. -/
def insertSeq {α : Type} : List α → Nat → List α → List α
  | l, _, [] => l
  | l, i, x :: xs => insertSeq (listInsert l i x) (i + 1) xs

/-- Rust regex `\w` (word character); the source's regexes are only ever
applied to ASCII schemes/paths, where `\w = [A-Za-z0-9_]`. -/
def isWordChar (c : Char) : Bool := c.isAlphanum || c = '_'

/-- `get_protocol_and_path` (src/preprocessor.rs): match the anchored
regex `^(\w+)://` — a maximal nonempty run of word characters followed by
`://` — returning the scheme and the remainder, or no scheme at all. -/
def getProtocolAndPath (path : Str) : Option Str × Str :=
  let r := path.takeWhile isWordChar
  if r.isEmpty then (none, path)
  else
    match path.drop r.length with
    | ':' :: '/' :: '/' :: tail => (some r, tail)
    | _ => (none, path)

/-- `Path` (src/lib.rs). -/
structure Path where
  protocol : Option Str
  components : List Str
deriving DecidableEq

/-- `Path::new` (src/lib.rs): strip scheme, split on `/` or `\`, drop
empty and `.` components, resolve `..` by popping the accumulator. -/
def Path.new (s : Str) : Path :=
  let pp := getProtocolAndPath s
  let components :=
    (splitOnPred (fun c => c = '\\' || c = '/') pp.2).filter
      (fun c => c.length > 0 && c ≠ ['.'])
  let finalComponents :=
    components.foldl
      (fun acc c => if c = ['.', '.'] then acc.dropLast else acc ++ [c]) []
  ⟨pp.1, finalComponents⟩

/-- `Path::join` (src/lib.rs).  The source `assert!`s that the argument
carries no protocol; the assertion failure is modelled as `none` (every
call site below establishes the argument is protocol-free). -/
def Path.join (p q : Path) : Option Path :=
  if q.protocol.isSome then none
  else some ⟨p.protocol, p.components ++ q.components⟩

/-- `Path::dirname` (src/lib.rs): clone with the last component popped. -/
def Path.dirname (p : Path) : Path :=
  ⟨p.protocol, p.components.dropLast⟩

/-- `impl Display for Path` (src/lib.rs). -/
def Path.render (p : Path) : Str :=
  match p.protocol with
  | none => joinSep '/' p.components
  | some pr => pr ++ ':' :: '/' :: '/' :: joinSep '/' p.components

/-- `Segment` (src/preprocessor.rs): a half-open line range tagged with
the file it came from.  The derived equality models the derived
`PartialEq` (Rc<String> compares the pointed-to strings). -/
structure Segment where
  start_line : Nat
  end_line : Nat
  original_file : Str
deriving DecidableEq

/-- `Segment::is_inside` (src/preprocessor.rs). -/
def Segment.is_inside (self of : Segment) : Bool :=
  self.start_line ≥ of.start_line && self.end_line ≤ of.end_line

/-- `FileIncludes` (src/preprocessor.rs): the editable line buffer with
its ordered provenance segments. -/
structure FileIncludes where
  lines : List Str
  segments : List Segment
deriving DecidableEq

/-- `FileIncludes::new` (src/preprocessor.rs). -/
def FileIncludes.new (text : Str) (original_file : Str) : FileIncludes :=
  let lines := splitOnPred (fun c => c = '\n') text
  ⟨lines, [⟨0, lines.length, original_file⟩]⟩

/-- `FileIncludes::text` (src/preprocessor.rs). -/
def FileIncludes.text (f : FileIncludes) : Str :=
  joinSep '\n' f.lines

/-- `FileIncludes::last_segment_at` (src/preprocessor.rs): reverse scan
for the last-added segment whose range contains `line`. -/
def FileIncludes.last_segment_at (f : FileIncludes) (line : Nat) : Option Segment :=
  f.segments.reverse.find? (fun s => line ≥ s.start_line && line < s.end_line)

/-- `FileIncludes::get_segment_parent` (src/preprocessor.rs): locate the
first list position equal to `segment`, then reverse-scan the strictly
earlier entries for the first one enclosing it. -/
def FileIncludes.get_segment_parent (f : FileIncludes) (segment : Segment) : Option Segment :=
  match f.segments.findIdx? (fun s => s = segment) with
  | none => none
  | some pos => (f.segments.take pos).reverse.find? (fun p => segment.is_inside p)

/-- `FileIncludes::file_and_line_at` (src/preprocessor.rs).  The local
line is `line - segment.start_line`, then `seg.end_line - seg.start_line - 1`
is subtracted for every segment whose parent is the owning segment.  The
source does this in `usize` (debug builds panic on underflow, release
builds wrap modulo 2^64); the model uses exact `Int` arithmetic, so an
underflow shows up as a negative local line. -/
def FileIncludes.file_and_line_at (f : FileIncludes) (line : Nat) : Option (Str × Int) :=
  match f.last_segment_at line with
  | none => none
  | some segment =>
    let localLine : Int := (line : Int) - segment.start_line
    let localLine := f.segments.foldl
      (fun ll seg =>
        if f.get_segment_parent seg = some segment then
          ll - ((seg.end_line : Int) - seg.start_line - 1)
        else ll)
      localLine
    some (segment.original_file, localLine)

/-- `FileIncludes::all_segments_at` (src/preprocessor.rs): every segment
containing `line`, in list order. -/
def FileIncludes.all_segments_at (f : FileIncludes) (line : Nat) : List Segment :=
  f.segments.filter (fun s => line ≥ s.start_line && line < s.end_line)

/-- The bound adjustment both replacement operations apply to each
existing segment bound: bounds strictly greater than the replaced line
move by `+ inserted_line_count - 1` (the source's `+= count; -= 1`, which
never underflows because such a bound is at least `line + 1 ≥ 1`). -/
def shiftBound (line count b : Nat) : Nat :=
  if b > line then b + count - 1 else b

/-- `FileIncludes::replace_line_with` (src/preprocessor.rs): replace line
`line` by the lines of `with_` and append one new segment covering them. -/
def FileIncludes.replace_line_with (f : FileIncludes) (line : Nat) (with_ : Str)
    (original_file : Str) : FileIncludes :=
  let insertLines := splitOnPred (fun c => c = '\n') with_
  let k := insertLines.length
  ⟨insertSeq (removeAt f.lines line) line insertLines,
   f.segments.map (fun s =>
     ⟨shiftBound line k s.start_line, shiftBound line k s.end_line, s.original_file⟩)
   ++ [⟨line, line + k, original_file⟩]⟩

/-- `FileIncludes::replace_line_with_includes` (src/preprocessor.rs):
replace line `line` by the lines of `includes`, then append its segments
shifted by `+line`. -/
def FileIncludes.replace_line_with_includes (f : FileIncludes) (line : Nat)
    (includes : FileIncludes) : FileIncludes :=
  let k := includes.lines.length
  ⟨insertSeq (removeAt f.lines line) line includes.lines,
   f.segments.map (fun s =>
     ⟨shiftBound line k s.start_line, shiftBound line k s.end_line, s.original_file⟩)
   ++ includes.segments.map (fun s =>
     ⟨s.start_line + line, s.end_line + line, s.original_file⟩)⟩

/-- Proper containment of segment ranges: `a` sits inside `b` but not
conversely (two segments with identical ranges are not parent/child in
any meaningful orientation, and the source's reverse scans handle them by
recency). -/
def properInside (a b : Segment) : Prop :=
  a.is_inside b = true ∧ ¬ b.is_inside a = true

/-- The documented ordering invariant of `FileIncludes.segments`
("Segments are required to be in order - child segments must lay AFTER
parent segments"): any segment properly containing another occurs
strictly earlier in the list. -/
def ChildAfterParent (segs : List Segment) : Prop :=
  ∀ i j : Fin segs.length,
    properInside (segs.get i) (segs.get j) → (j : Nat) < (i : Nat)

instance decProperInside (a b : Segment) : Decidable (properInside a b) :=
  inferInstanceAs (Decidable (a.is_inside b = true ∧ ¬ b.is_inside a = true))

instance decChildAfterParent (segs : List Segment) : Decidable (ChildAfterParent segs) :=
  inferInstanceAs (Decidable (∀ i j : Fin segs.length,
    properInside (segs.get i) (segs.get j) → (j : Nat) < (i : Nat)))

/-!
The include-directive regex of `FileLoader::load_file_inner`
(src/preprocessor.rs):

  `\s*(#(?:pragma)? ?include_once *[ <"](?P<filename>[^\n\r"<>]*)[>"\n\r]?)`

`Regex::captures` finds the leftmost match and the source extracts capture
group 2 (`filename`).  The functions below implement exactly this
leftmost-first backtracking search, specialised to the fixed pattern:
`\s*` can only usefully stop at a `#` (whitespace is never `#`), `pragma`
and the optional space are tried greedily, ` *[ <"]` consumes spaces
greedily with the delimiter being `<`, `"` or the final space, and the
capture is the maximal run of characters outside `\n\r"<>`.
-/

/-- Capture group `filename`: everything up to (not including) the first
`"`, `<`, `>` or line end; the optional closing delimiter is dropped. -/
def takeFilename (s : Str) : Str :=
  s.takeWhile (fun c => !(c = '\n' || c = '\r' || c = '"' || c = '<' || c = '>'))

/-- Match ` *[ <"](?P<filename>...)` at the start of `s`. -/
def matchDelimAndName (s : Str) : Option Str :=
  let r := s.dropWhile (fun c => c = ' ')
  match r with
  | '<' :: t => some (takeFilename t)
  | '"' :: t => some (takeFilename t)
  | _ => if r.length < s.length then some (takeFilename r) else none

/-- Match `include_once *[ <"](?P<filename>...)` at the start of `s`. -/
def matchIncludeOnce (s : Str) : Option Str :=
  if ("include_once".toList).isPrefixOf s then
    matchDelimAndName (s.drop 12)
  else none

/-- Match ` ?include_once...` at the start of `s` (the optional space is
taken greedily; `include_once` never starts with a space, so at most one
alternative applies). -/
def matchAfterPragma (s : Str) : Option Str :=
  match s with
  | ' ' :: t => matchIncludeOnce t
  | _ => matchIncludeOnce s

/-- Try to match the whole directive pattern at the start of `s`. -/
def matchDirectiveAt (s : Str) : Option Str :=
  match s.dropWhile Char.isWhitespace with
  | '#' :: rest =>
    match (if ("pragma".toList).isPrefixOf rest then
             matchAfterPragma (rest.drop 6) else none) with
    | some fn => some fn
    | none => matchAfterPragma rest
  | _ => none

/-- Leftmost-first search of the directive pattern over a line, returning
capture group 2 (`filename`) of the first match. -/
def scanDirective : Str → Option Str
  | [] => none
  | l@(_ :: t) =>
    match matchDirectiveAt l with
    | some fn => some fn
    | none => scanDirective t

/-- `FileLoader` (src/preprocessor.rs): the ordered protocol registry.
A registered loader is a fallible content function, exactly the Rust
`dyn Fn(&str) -> Result<String, String>`. -/
structure FileLoader where
  protocols : List (Str × (Str → Except Str Str))

/-- `FileLoader::new` (src/preprocessor.rs) registers the single scheme
`"file"`.  Its loader (the free function `load_file`) canonicalizes the
path and reads it from the local filesystem — irreducibly I/O — so the
model abstracts the filesystem as the function argument `fs`. -/
def FileLoader.new (fs : Str → Except Str Str) : FileLoader :=
  ⟨[("file".toList, fs)]⟩

/-- `FileLoader::add_protocol` (src/preprocessor.rs).  Rust mutates
`&mut self` and may return early, so the model returns the result paired
with the post-call registry state. -/
def FileLoader.add_protocol (st : FileLoader) (protocol : Str)
    (loader : Str → Except Str Str) : Except Str Unit × FileLoader :=
  if st.protocols.any (fun p => p.1 = protocol) then
    (.error ("Protocol is already added".toList), st)
  else
    (.ok (), ⟨st.protocols ++ [(protocol, loader)]⟩)

/-- `FileLoader::get_protocol` (src/preprocessor.rs): first registry
entry with the given scheme name. -/
def FileLoader.get_protocol (st : FileLoader) (name : Str) :
    Option (Str → Except Str Str) :=
  (st.protocols.find? (fun p => p.1 = name)).map (fun p => p.2)

/-- The `format!` message for an unregistered scheme. -/
def unsupportedMsg (protocol path : Str) : Str :=
  "Unsupported protocol: ".toList ++ protocol ++ " (".toList ++ path ++ [')']

/-- The `format!` message for an empty file. -/
def emptyMsg (path : Str) : Str :=
  "Empty files (".toList ++ path ++
    ") are unsupported because of technical reasons, sorry :(".toList

/-- `FileLoader::basic_load_file` (src/preprocessor.rs): split the
scheme (defaulting to `"file"`), look the loader up, run it, and reject
empty content. -/
def FileLoader.basic_load_file (st : FileLoader) (path : Str) : Except Str Str :=
  let pp := getProtocolAndPath path
  let protocol := pp.1.getD ("file".toList)
  match st.get_protocol protocol with
  | none => .error (unsupportedMsg protocol path)
  | some loader =>
    match loader pp.2 with
    | .error e => .error e
    | .ok text => if text = [] then .error (emptyMsg path) else .ok text

/-- `HashSet::insert` on the used-files set. -/
def insertUsed (path : Str) (used : List Str) : List Str :=
  if used.contains path then used else path :: used

/-- The directive-collection pass of `FileLoader::load_file_inner`: every
`(line_id, resolved target path)` pair, in line order.  A captured
filename without a scheme is resolved against the including file's
directory via `Path::join` (whose `assert!` cannot fire here because the
branch established the argument has no protocol; the `getD` fallback is
dead code). -/
def collectJobs (dirname : Path) (lines : List Str) : List (Nat × Str) :=
  lines.enum.filterMap (fun li =>
    (scanDirective li.2).map (fun filepath =>
      (li.1,
        if (getProtocolAndPath filepath).1.isNone then
          ((dirname.join (Path.new filepath)).getD (Path.new filepath)).render
        else filepath)))

/-- The replacement loop of `FileLoader::load_file_inner`, parametrised
by the recursive call `loadF` (which threads the mutable `used_files`
set).  A target already in `used_files` only blanks its directive line
(`lines[line_id + line_offset] = ""`, in range at every real call site);
otherwise the target is marked used, loaded, spliced in, and the running
offset grows by its line count minus one. -/
def processJobs (loadF : Str → List Str → Except Str (FileIncludes × List Str)) :
    FileIncludes → List Str → Nat → List (Nat × Str) →
    Except Str (FileIncludes × List Str)
  | inc, used, _, [] => .ok (inc, used)
  | inc, used, off, (lineId, filepath) :: rest =>
    if used.contains filepath then
      processJobs loadF ⟨inc.lines.set (lineId + off) [], inc.segments⟩ used off rest
    else
      match loadF filepath (insertUsed filepath used) with
      | .error e => .error e
      | .ok (newIncludes, used') =>
        processJobs loadF
          (inc.replace_line_with_includes (lineId + off) newIncludes)
          used' (off + (newIncludes.lines.length - 1)) rest

/-- `FileLoader::load_file_inner` (src/preprocessor.rs), with explicit
recursion fuel (the source recursion is bounded by include nesting;
every concrete evaluation below carries enough fuel). -/
def loadFileInner (st : FileLoader) : Nat → Str → List Str →
    Except Str (FileIncludes × List Str)
  | 0, _, _ => .error ("recursion fuel exhausted".toList)
  | fuel + 1, path, used =>
    let dirname := (Path.new path).dirname
    let used := insertUsed path used
    match st.basic_load_file path with
    | .error e => .error e
    | .ok file =>
      let includes := FileIncludes.new file path
      processJobs (loadFileInner st fuel) includes used 0
        (collectJobs dirname includes.lines)

/-- `FileLoader::load_file` (src/preprocessor.rs): run the recursion on a
fresh empty `used_files` set. -/
def FileLoader.load_file (st : FileLoader) (fuel : Nat) (path : Str) :
    Except Str FileIncludes :=
  (loadFileInner st fuel path []).map (fun r => r.1)

/-!
The diagnostic remapper `parse_opengl_errors` (src/program.rs) and its
marker regex `(\d)+\((\d+)\) :` (leftmost match; the source parses
capture group 2, the digits inside the parentheses).
-/

/-- Digits-to-number, the model of `str::parse::<usize>` on a nonempty
digit run (overflow aside, irrelevant at every input considered). -/
def natOfDigits (ds : Str) : Nat :=
  ds.foldl (fun n c => n * 10 + (c.toNat - 48)) 0

/-- Match `(\d)+\((\d+)\) :` at the start of `s`, returning group 2.
`(\d)+` is a maximal digit run (backtracking cannot help: a shorter run
is followed by a digit, never by `(`). -/
def matchErrAt (s : Str) : Option Nat :=
  let ds := s.takeWhile Char.isDigit
  if ds.isEmpty then none
  else
    match s.drop ds.length with
    | '(' :: rest =>
      let ds2 := rest.takeWhile Char.isDigit
      if ds2.isEmpty then none
      else
        match rest.drop ds2.length with
        | ')' :: ' ' :: ':' :: _ => some (natOfDigits ds2)
        | _ => none
    | _ => none

/-- Leftmost-first search of the marker over a diagnostic line. -/
def scanErrMarker : Str → Option Nat
  | [] => none
  | l@(_ :: t) =>
    match matchErrAt l with
    | some r => some r
    | none => scanErrMarker t

/-- Display of the remapped local line number.  The source formats a
`usize`; the model's exact `Int` is reduced modulo 2^64 first, matching
release-build wrap-around (debug builds would already have panicked on
the underflow that makes it negative). -/
def lineNumStr (i : Int) : Str :=
  Nat.toDigits 10 ((i % ((2 : Int) ^ 64)).toNat)

/-- One iteration of the `parse_opengl_errors` line loop: a line without
the marker passes through; a line with marker row `n` is annotated with
the include chain, original file and local line.  The source calls
`.unwrap()` on `file_and_line_at`, so an uncovered row panics — modelled
as `none`. -/
def remapLine (file : FileIncludes) (line : Str) : Option Str :=
  match scanErrMarker line with
  | none => some line
  | some rowNo =>
    match file.file_and_line_at rowNo with
    | none => none
    | some fl =>
      let hist := file.all_segments_at rowNo
      let filepath :=
        (hist.take (hist.length - 1)).foldl
          (fun s seg => s ++ seg.original_file ++ " included from\n".toList)
          ("File ".toList)
        ++ fl.1
      some (filepath ++ " | Line ".toList ++ lineNumStr fl.2 ++ " | ".toList ++ line)

/-- The accumulation loop of `parse_opengl_errors`: each processed line
is pushed followed by one `\n`. -/
def parseLines (file : FileIncludes) : Str → List Str → Option Str
  | acc, [] => some acc
  | acc, line :: rest =>
    match remapLine file line with
    | none => none
    | some l => parseLines file (acc ++ l ++ ['\n']) rest

/-- `parse_opengl_errors` (src/program.rs).  `none` models the panic of
the `.unwrap()` on an unmappable marker row. -/
def parse_opengl_errors (error : Str) (file : FileIncludes) : Option Str :=
  parseLines file [] (splitOnPred (fun c => c = '\n') error)

/-!
### Concrete document trees used as test fixtures

Each is a pure "filesystem" handed to the `"file"` scheme, mirroring the
spec's worked examples.
-/

/-- A 3-line `main` that includes the 2-line `util` at line 1. -/
def fsMainUtil : Str → Except Str Str := fun p =>
  if p = "main".toList then .ok ("m0\n#include_once \"util\"\nm2".toList)
  else if p = "util".toList then .ok ("u0\nu1".toList)
  else .error ("no such file".toList)

/-- `main` includes `b` twice directly. -/
def fsDirectTwice : Str → Except Str Str := fun p =>
  if p = "main".toList then
    .ok ("m0\n#include_once \"b\"\n#include_once \"b\"\nm3".toList)
  else if p = "b".toList then .ok ("b0\nb1".toList)
  else .error ("no such file".toList)

/-- `main` includes `b` and `c`; `c` includes `b` again. -/
def fsTwoIncluders : Str → Except Str Str := fun p =>
  if p = "main".toList then
    .ok ("m0\n#include_once \"b\"\n#include_once \"c\"\nm3".toList)
  else if p = "b".toList then .ok ("b0\nb1".toList)
  else if p = "c".toList then .ok ("c0\n#include_once \"b\"\nc2".toList)
  else .error ("no such file".toList)

/-! ### General lemmas about the list-level building blocks -/

theorem splitOnPred_ne_nil (p : Char → Bool) (s : Str) : splitOnPred p s ≠ [] := by
  induction s with
  | nil => simp [splitOnPred]
  | cons c cs ih =>
    by_cases h : p c
    · simp [splitOnPred, h]
    · simp only [splitOnPred, h]
      rcases hs : splitOnPred p cs with _ | ⟨h1, t1⟩
      · simp
      · simp

theorem joinSep_splitOnPred (sep : Char) (s : Str) :
    joinSep sep (splitOnPred (fun c => c = sep) s) = s := by
  induction s with
  | nil => rfl
  | cons c cs ih =>
    by_cases h : c = sep
    · subst h
      rcases hs : splitOnPred (fun x => x = c) cs with _ | ⟨h1, t1⟩
      · exact absurd hs (splitOnPred_ne_nil _ _)
      · rw [hs] at ih
        have hstep : splitOnPred (fun x => x = c) (c :: cs) = [] :: h1 :: t1 := by
          simp [splitOnPred, hs]
        rw [hstep]
        simpa [joinSep] using ih
    · rcases hs : splitOnPred (fun x => x = sep) cs with _ | ⟨h1, t1⟩
      · exact absurd hs (splitOnPred_ne_nil _ _)
      · rw [hs] at ih
        simp only [splitOnPred, decide_eq_true_eq, if_neg h, hs]
        cases t1 with
        | nil => simpa [joinSep] using ih
        | cons x xs =>
          simp only [joinSep] at ih ⊢
          rw [List.cons_append, ih]

theorem length_splitOnPred (p : Char → Bool) (s : Str) :
    (splitOnPred p s).length = s.countP p + 1 := by
  induction s with
  | nil => simp [splitOnPred]
  | cons c cs ih =>
    by_cases h : p c
    · simp [splitOnPred, h, List.countP_cons, ih]
    · rcases hs : splitOnPred p cs with _ | ⟨h1, t1⟩
      · exact absurd hs (splitOnPred_ne_nil _ _)
      · rw [hs] at ih
        simp only [splitOnPred, h, if_neg, hs, List.countP_cons]
        simp only [List.length_cons] at ih ⊢
        simp [h, ih]

theorem listInsert_append {α : Type} (A B : List α) (a : α) :
    listInsert (A ++ B) A.length a = A ++ a :: B := by
  induction A with
  | nil => simp [listInsert]
  | cons x xs ih => simpa [listInsert] using ih

theorem insertSeq_append {α : Type} (new : List α) :
    ∀ A B : List α, insertSeq (A ++ B) A.length new = A ++ new ++ B := by
  induction new with
  | nil => intro A B; simp [insertSeq]
  | cons x xs ih =>
    intro A B
    have h1 : insertSeq (A ++ B) A.length (x :: xs)
        = insertSeq (listInsert (A ++ B) A.length x) (A.length + 1) xs := rfl
    rw [h1, listInsert_append]
    have h2 : A ++ x :: B = (A ++ [x]) ++ B := by simp
    have h3 : A.length + 1 = (A ++ [x]).length := by simp
    rw [h2, h3, ih]
    simp

theorem insertSeq_eq_splice {α : Type} (new l : List α) (i : Nat)
    (h : i ≤ l.length) : insertSeq l i new = l.take i ++ new ++ l.drop i := by
  have hlen : (l.take i).length = i := by rw [List.length_take]; omega
  calc insertSeq l i new
      = insertSeq (l.take i ++ l.drop i) (l.take i).length new := by
        rw [hlen, List.take_append_drop]
    _ = l.take i ++ new ++ l.drop i := insertSeq_append new (l.take i) (l.drop i)

theorem removeAt_eq_splice {α : Type} (l : List α) (i : Nat)
    (h : i < l.length) : removeAt l i = l.take i ++ l.drop (i + 1) := by
  induction l generalizing i with
  | nil => simp at h
  | cons x xs ih =>
    cases i with
    | zero => rfl
    | succ n =>
      simp only [removeAt, List.take_succ_cons, List.drop_succ_cons, List.cons_append]
      rw [ih]
      simpa using h

theorem length_insertSeq {α : Type} (new l : List α) (i : Nat) (h : i ≤ l.length) :
    (insertSeq l i new).length = l.length + new.length := by
  rw [insertSeq_eq_splice new l i h]
  simp only [List.length_append, List.length_take, List.length_drop]
  omega

theorem length_removeAt {α : Type} (l : List α) (i : Nat) (h : i < l.length) :
    (removeAt l i).length = l.length - 1 := by
  rw [removeAt_eq_splice l i h]
  simp only [List.length_append, List.length_take, List.length_drop]
  omega

/-! ### Claim C5 — path normalization examples -/

/-- C5 fails as stated: `Path::new("x/y").join("../z")` does not yield
components `["x","z"]`.  `join`'s argument is normalized on its own
first — its leading `..` pops from the empty accumulator, a no-op — and
`join` then appends, giving `["x","y","z"]`. -/
theorem C5_join_counterexample :
    ((Path.new ("x/y".toList)).join (Path.new ("../z".toList))).map Path.components
        = some ["x".toList, "y".toList, "z".toList] ∧
    ¬ ((Path.new ("x/y".toList)).join (Path.new ("../z".toList))).map Path.components
        = some ["x".toList, "z".toList] := by
  decide

/-- C5 (amended): `Path::new("a/./b/../c")` has no protocol and
components `["a","c"]`; `Path::new("x/y").join("../z")` succeeds (its
argument has no protocol) with components `["x","y","z"]` — the `..` of
the joined path is resolved against that path alone before appending and
never pops into the base path. -/
theorem C5_path_normalization :
    Path.new ("a/./b/../c".toList) = ⟨none, ["a".toList, "c".toList]⟩ ∧
    (Path.new ("x/y".toList)).join (Path.new ("../z".toList))
        = some ⟨none, ["x".toList, "y".toList, "z".toList]⟩ := by
  decide

/-! ### Claim C4 — directive-free text round trip and identity provenance -/

/-- C4: for any text (a fortiori one with no include directives),
`FileIncludes::new(text, f).text() == text` — splitting on newline and
joining with newline is the exact inverse — and `file_and_line_at(i)`
is `(f, i)` for every line index `i` below the line count. -/
theorem C4_roundtrip_and_identity (text f : Str) (i : Nat)
    (h : i < (FileIncludes.new text f).lines.length) :
    (FileIncludes.new text f).text = text ∧
    (FileIncludes.new text f).file_and_line_at i = some (f, (i : Int)) := by
  constructor
  · exact joinSep_splitOnPred '\n' text
  · have hlt : i < (splitOnPred (fun c => c = '\n') text).length := h
    simp only [FileIncludes.new, FileIncludes.file_and_line_at,
      FileIncludes.last_segment_at, FileIncludes.get_segment_parent,
      List.reverse_cons, List.reverse_nil, List.nil_append, List.find?]
    have hcond : (decide (i ≥ 0) && decide (i < (splitOnPred (fun c => c = '\n') text).length))
        = true := by
      simp [hlt]
    rw [hcond]
    simp only [List.foldl_cons, List.foldl_nil, List.findIdx?]
    simp only [decide_eq_true_eq, if_pos rfl, List.take_zero, List.reverse_nil,
      List.find?_nil]
    simp

/-- Witness for C4 at `text = "a\nb"`, `f = "f"`, `i = 1`. -/
theorem C4_roundtrip_and_identity_witness :
    1 < (FileIncludes.new ("a\nb".toList) ("f".toList)).lines.length ∧
    ((FileIncludes.new ("a\nb".toList) ("f".toList)).text = "a\nb".toList ∧
     (FileIncludes.new ("a\nb".toList) ("f".toList)).file_and_line_at 1
        = some ("f".toList, (1 : Int))) :=
  ⟨by decide, C4_roundtrip_and_identity ("a\nb".toList) ("f".toList) 1 (by decide)⟩

/-! ### Claim C9 — constructed buffers are never empty -/

/-- C9: `FileIncludes::new` always produces `newline count + 1 ≥ 1`
lines and exactly one whole-file segment tagged `f`; both replacement
operations at a valid line index keep the line buffer nonempty (they
remove one line and insert at least one — `replace_line_with` splits its
text into at least one line, and `replace_line_with_includes` splices a
`FileIncludes` whose own line buffer is nonempty). -/
theorem C9_buffers_nonempty (text f : Str) (inc nested : FileIncludes)
    (line : Nat) (w of_ : Str)
    (h1 : line < inc.lines.length) (h2 : nested.lines ≠ []) :
    ((FileIncludes.new text f).lines.length = text.countP (fun c => c = '\n') + 1 ∧
     1 ≤ (FileIncludes.new text f).lines.length ∧
     (FileIncludes.new text f).segments
        = [⟨0, (FileIncludes.new text f).lines.length, f⟩]) ∧
    0 < (inc.replace_line_with line w of_).lines.length ∧
    0 < (inc.replace_line_with_includes line nested).lines.length := by
  have hline : line ≤ (removeAt inc.lines line).length := by
    rw [length_removeAt inc.lines line h1]; omega
  refine ⟨⟨?_, ?_, ?_⟩, ?_, ?_⟩
  · simp [FileIncludes.new, length_splitOnPred]
  · simp [FileIncludes.new, length_splitOnPred]
  · rfl
  · simp only [FileIncludes.replace_line_with]
    rw [length_insertSeq _ _ _ hline, length_splitOnPred]
    omega
  · simp only [FileIncludes.replace_line_with_includes]
    rw [length_insertSeq _ _ _ hline]
    have : 0 < nested.lines.length := List.length_pos.mpr h2
    omega

/-- Witness for C9 on a 2-line buffer, replacing line 0. -/
theorem C9_buffers_nonempty_witness :
    0 < (FileIncludes.new ("a\nb".toList) ("f".toList)).lines.length ∧
    0 < ((FileIncludes.new ("a\nb".toList) ("f".toList)).replace_line_with 0
          ("x\ny".toList) ("g".toList)).lines.length ∧
    0 < ((FileIncludes.new ("a\nb".toList) ("f".toList)).replace_line_with_includes 0
          (FileIncludes.new ("x\ny".toList) ("g".toList))).lines.length := by
  have h := C9_buffers_nonempty ("a\nb".toList) ("f".toList)
    (FileIncludes.new ("a\nb".toList) ("f".toList))
    (FileIncludes.new ("x\ny".toList) ("g".toList)) 0 ("x\ny".toList) ("g".toList)
    (by decide) (by decide)
  exact ⟨by decide, h.2.1, h.2.2⟩

/-! ### Claim C8 — protocol registration -/

/-- C8: `add_protocol` errors exactly when the scheme is already
registered and leaves the registry unchanged on that error; on success
it appends the loader; a fresh `FileLoader` registry holds exactly one
entry, scheme `"file"`. -/
theorem C8_add_protocol (st : FileLoader) (name : Str)
    (l fs : Str → Except Str Str) :
    (st.protocols.any (fun p => p.1 = name) = true →
      st.add_protocol name l = (.error ("Protocol is already added".toList), st)) ∧
    (st.protocols.any (fun p => p.1 = name) = false →
      st.add_protocol name l = (.ok (), ⟨st.protocols ++ [(name, l)]⟩)) ∧
    (FileLoader.new fs).protocols.length = 1 ∧
    (FileLoader.new fs).protocols.map (fun p => p.1) = ["file".toList] := by
  refine ⟨fun h => ?_, fun h => ?_, rfl, rfl⟩
  · simp [FileLoader.add_protocol, h]
  · simp [FileLoader.add_protocol, h]

/-- Witness for C8: re-registering `"file"` on a fresh loader fails and
keeps the registry; registering `"mem"` succeeds and appends it. -/
theorem C8_add_protocol_witness :
    ((FileLoader.new (fun _ => .error [])).protocols.any
        (fun p => p.1 = "file".toList) = true ∧
      (FileLoader.new (fun _ => .error [])).add_protocol ("file".toList)
          (fun _ => .error [])
        = (.error ("Protocol is already added".toList),
           FileLoader.new (fun _ => .error []))) ∧
    ((FileLoader.new (fun _ => .error [])).protocols.any
        (fun p => p.1 = "mem".toList) = false ∧
      (FileLoader.new (fun _ => .error [])).add_protocol ("mem".toList)
          (fun _ => .error [])
        = (.ok (), ⟨(FileLoader.new (fun _ => .error [])).protocols
            ++ [("mem".toList, fun _ => .error [])]⟩)) :=
  ⟨⟨by decide,
    (C8_add_protocol (FileLoader.new (fun _ => .error [])) ("file".toList)
      (fun _ => .error []) (fun _ => .error [])).1 (by decide)⟩,
   ⟨by decide,
    (C8_add_protocol (FileLoader.new (fun _ => .error [])) ("mem".toList)
      (fun _ => .error []) (fun _ => .error [])).2.1 (by decide)⟩⟩

/-! ### Claim C1 — nested provenance of the main/util example -/

/-- C1 names the code correct, but the code is wrong: resolving the
spec's own example (3-line `main` including 2-line `util` at line 1)
gives 4 merged lines with segments `main=[0,4)` and `util=[1,3)`, and
`file_and_line_at` returns `(util,0)`, `(util,1)`, `(main,2)` at lines
1–3 — but at line 0 the source subtracts the child's collapsed line
count with no check that the child lies before the queried point,
computing `0 - 1` in `usize` (panic in debug builds; the model's exact
arithmetic shows the mathematically intended value `-1`).  The claimed
`(main, 0)` is produced by the spec's rule, not by the code. -/
theorem C1_provenance_eval :
    (FileLoader.mk [("file".toList, fsMainUtil)]).load_file 2 ("main".toList)
      = .ok ⟨["m0".toList, "u0".toList, "u1".toList, "m2".toList],
             [⟨0, 4, "main".toList⟩, ⟨1, 3, "util".toList⟩]⟩ ∧
    (FileIncludes.mk ["m0".toList, "u0".toList, "u1".toList, "m2".toList]
        [⟨0, 4, "main".toList⟩, ⟨1, 3, "util".toList⟩]).file_and_line_at 0
      = some ("main".toList, (-1 : Int)) ∧
    (FileIncludes.mk ["m0".toList, "u0".toList, "u1".toList, "m2".toList]
        [⟨0, 4, "main".toList⟩, ⟨1, 3, "util".toList⟩]).file_and_line_at 1
      = some ("util".toList, (0 : Int)) ∧
    (FileIncludes.mk ["m0".toList, "u0".toList, "u1".toList, "m2".toList]
        [⟨0, 4, "main".toList⟩, ⟨1, 3, "util".toList⟩]).file_and_line_at 2
      = some ("util".toList, (1 : Int)) ∧
    (FileIncludes.mk ["m0".toList, "u0".toList, "u1".toList, "m2".toList]
        [⟨0, 4, "main".toList⟩, ⟨1, 3, "util".toList⟩]).file_and_line_at 3
      = some ("main".toList, (2 : Int)) := by
  refine ⟨rfl, ?_, ?_, ?_, ?_⟩ <;> rfl

/-! ### Claim C2 — include-once semantics -/

/-- C2: a directive whose target is already in `used_files` only blanks
its line — the line at `line_id + line_offset` becomes empty, the
segment list, the used set and the running offset are untouched, and no
error is raised (the loop simply continues).  On the concrete trees:
including `b` twice directly, and once directly plus once through `c`,
each yield exactly one copy of `b`'s two lines in the merged output. -/
theorem C2_include_once
    (loadF : Str → List Str → Except Str (FileIncludes × List Str))
    (inc : FileIncludes) (used : List Str) (off lineId : Nat) (fp : Str)
    (rest : List (Nat × Str)) (h : used.contains fp = true) :
    processJobs loadF inc used off ((lineId, fp) :: rest)
      = processJobs loadF ⟨inc.lines.set (lineId + off) [], inc.segments⟩
          used off rest ∧
    (FileLoader.mk [("file".toList, fsDirectTwice)]).load_file 2 ("main".toList)
      = .ok ⟨["m0".toList, "b0".toList, "b1".toList, [], "m3".toList],
             [⟨0, 5, "main".toList⟩, ⟨1, 3, "b".toList⟩]⟩ ∧
    (FileLoader.mk [("file".toList, fsTwoIncluders)]).load_file 3 ("main".toList)
      = .ok ⟨["m0".toList, "b0".toList, "b1".toList, "c0".toList, [],
              "c2".toList, "m3".toList],
             [⟨0, 7, "main".toList⟩, ⟨1, 3, "b".toList⟩, ⟨3, 6, "c".toList⟩]⟩ ∧
    (["m0".toList, "b0".toList, "b1".toList, [], "m3".toList].count
        ("b0".toList) = 1 ∧
     ["m0".toList, "b0".toList, "b1".toList, "c0".toList, [], "c2".toList,
        "m3".toList].count ("b0".toList) = 1 ∧
     ["m0".toList, "b0".toList, "b1".toList, "c0".toList, [], "c2".toList,
        "m3".toList].count ("b1".toList) = 1) := by
  refine ⟨?_, rfl, rfl, by decide⟩
  have h' : fp ∈ used := by simpa using h
  simp [processJobs, h']

/-- Witness for C2: blanking step applied to a concrete already-used
target, evaluated to its final result. -/
theorem C2_include_once_witness :
    (["b".toList].contains ("b".toList) = true) ∧
    processJobs (fun _ _ => .error []) (FileIncludes.new ("x".toList) ("f".toList))
        ["b".toList] 0 [(0, "b".toList)]
      = .ok (⟨[[]], [⟨0, 1, "f".toList⟩]⟩, ["b".toList]) :=
  ⟨by decide,
   ((C2_include_once (fun _ _ => .error [])
      (FileIncludes.new ("x".toList) ("f".toList)) ["b".toList] 0 0
      ("b".toList) [] (by decide)).1).trans rfl⟩

/-! ### Claim C3 — the diagnostic remapper -/

theorem remapLine_isSome (file : FileIncludes) (line : Str) :
    (remapLine file line).isSome = true ↔
      ∀ r, scanErrMarker line = some r →
        (file.file_and_line_at r).isSome = true := by
  cases hs : scanErrMarker line with
  | none => simp [remapLine, hs]
  | some r =>
    cases hf : file.file_and_line_at r with
    | none => simp [remapLine, hs, hf]
    | some fl => simp [remapLine, hs, hf]

theorem parseLines_isSome (file : FileIncludes) (ls : List Str) (acc : Str) :
    (parseLines file acc ls).isSome = true ↔
      ∀ line ∈ ls, (remapLine file line).isSome = true := by
  induction ls generalizing acc with
  | nil => simp [parseLines]
  | cons l rest ih =>
    cases hr : remapLine file l with
    | none => simp [parseLines, hr]
    | some l' => simp [parseLines, hr, ih]

theorem parseLines_passthrough (file : FileIncludes) (ls : List Str) (acc : Str)
    (h : ∀ line ∈ ls, scanErrMarker line = none) :
    parseLines file acc ls
      = some (ls.foldl (fun a l => a ++ l ++ ['\n']) acc) := by
  induction ls generalizing acc with
  | nil => rfl
  | cons l rest ih =>
    have hl : scanErrMarker l = none := h l (by simp)
    have hr : remapLine file l = some l := by simp [remapLine, hl]
    simp only [parseLines, hr, List.foldl_cons]
    exact ih _ (fun x hx => h x (by simp [hx]))

/-- C3 fails as stated: on the marker line `0(5) :` against a 2-line
document, row 5 is covered by no segment, `file_and_line_at` is `None`,
and the source's `.unwrap()` panics (modelled `none`) — the line is not
emitted as received. -/
theorem C3_unwrap_counterexample :
    parse_opengl_errors ("0(5) : err".toList)
      (FileIncludes.new ("a\nb".toList) ("f".toList)) = none := by
  rfl

/-- C3 (amended): `parse_opengl_errors` returns a result iff every line
whose `N(line) :` marker it finds carries a row number covered by some
segment (an uncovered row makes the `.unwrap()` panic instead of
emitting the line as received); when no line carries the marker, every
line passes through unchanged, each followed by one newline. -/
theorem C3_remapper_totality (err : Str) (file : FileIncludes) :
    ((parse_opengl_errors err file).isSome = true ↔
      ∀ line ∈ splitOnPred (fun c => c = '\n') err, ∀ r,
        scanErrMarker line = some r →
          (file.file_and_line_at r).isSome = true) ∧
    ((∀ line ∈ splitOnPred (fun c => c = '\n') err, scanErrMarker line = none) →
      parse_opengl_errors err file
        = some ((splitOnPred (fun c => c = '\n') err).foldl
            (fun a l => a ++ l ++ ['\n']) [])) := by
  constructor
  · rw [parse_opengl_errors, parseLines_isSome]
    exact ⟨fun h line hl => (remapLine_isSome file line).mp (h line hl),
           fun h line hl => (remapLine_isSome file line).mpr (h line hl)⟩
  · intro h
    exact parseLines_passthrough file _ [] h

/-- Witness for C3 on a marker-free diagnostic. -/
theorem C3_remapper_totality_witness :
    (∀ line ∈ splitOnPred (fun c => c = '\n') ("hello".toList),
      scanErrMarker line = none) ∧
    parse_opengl_errors ("hello".toList)
        (FileIncludes.new ("a".toList) ("f".toList))
      = some ("hello".toList ++ ['\n']) :=
  ⟨by decide,
   ((C3_remapper_totality ("hello".toList)
      (FileIncludes.new ("a".toList) ("f".toList))).2 (by decide)).trans rfl⟩

/-! ### Claim C6 — failure modes of loading -/

/-- C6: `basic_load_file` splits an optional scheme defaulting to
`"file"`; it fails with the unsupported-protocol message exactly when no
loader is registered for the scheme, propagates a loader's own error,
fails with the empty-file message exactly when the loader returns empty
content, and otherwise returns the content verbatim.  `load_file_inner`
returns that very error — being a pure `Except`, the error carries no
partial `FileIncludes`/`Segment` (the source constructs them only after
`basic_load_file` has succeeded) — and a failing recursive load aborts
the replacement loop with the nested error, so the first failure anywhere
aborts the whole resolve with no partial result. -/
theorem C6_loading_failures (st : FileLoader) (path : Str)
    (fuel : Nat) (used : List Str) :
    (st.get_protocol ((getProtocolAndPath path).1.getD ("file".toList)) = none →
      st.basic_load_file path
        = .error (unsupportedMsg ((getProtocolAndPath path).1.getD ("file".toList))
            path)) ∧
    (∀ l, st.get_protocol ((getProtocolAndPath path).1.getD ("file".toList))
        = some l →
      (l (getProtocolAndPath path).2 = .ok [] →
        st.basic_load_file path = .error (emptyMsg path)) ∧
      (∀ e, l (getProtocolAndPath path).2 = .error e →
        st.basic_load_file path = .error e) ∧
      (∀ t, l (getProtocolAndPath path).2 = .ok t → t ≠ [] →
        st.basic_load_file path = .ok t)) ∧
    (∀ e, st.basic_load_file path = .error e →
      loadFileInner st (fuel + 1) path used = .error e) ∧
    (∀ (loadF : Str → List Str → Except Str (FileIncludes × List Str))
       (inc : FileIncludes) (usedj : List Str) (off lineId : Nat) (fp : Str)
       (rest : List (Nat × Str)) (e : Str),
      usedj.contains fp = false → loadF fp (insertUsed fp usedj) = .error e →
      processJobs loadF inc usedj off ((lineId, fp) :: rest) = .error e) := by
  refine ⟨fun h => ?_, fun l hl => ⟨fun h => ?_, fun e h => ?_, fun t h ht => ?_⟩,
          fun e h => ?_, fun loadF inc usedj off lineId fp rest e h1 h2 => ?_⟩
  · simp only [FileLoader.basic_load_file]
    rw [h]
  · simp only [FileLoader.basic_load_file]
    simp only [hl, h]
    simp
  · simp only [FileLoader.basic_load_file]
    simp only [hl, h]
  · simp only [FileLoader.basic_load_file]
    simp only [hl, h]
    simp [ht]
  · simp [loadFileInner, h]
  · have h1' : ¬ fp ∈ usedj := by simpa using h1
    simp [processJobs, h1', h2]

/-- Witness for C6: an empty registry rejects `mem://x` with the
unsupported-protocol error (and `load_file_inner` propagates it), and a
registry whose `file` loader returns empty content rejects `e` with the
empty-file error. -/
theorem C6_loading_failures_witness :
    (FileLoader.mk []).basic_load_file ("mem://x".toList)
      = .error (unsupportedMsg ("mem".toList) ("mem://x".toList)) ∧
    loadFileInner (FileLoader.mk []) 1 ("mem://x".toList) []
      = .error (unsupportedMsg ("mem".toList) ("mem://x".toList)) ∧
    (FileLoader.mk [("file".toList, fun _ => .ok [])]).basic_load_file ("e".toList)
      = .error (emptyMsg ("e".toList)) :=
  ⟨(C6_loading_failures (FileLoader.mk []) ("mem://x".toList) 0 []).1 rfl,
   (C6_loading_failures (FileLoader.mk []) ("mem://x".toList) 0 []).2.2.1 _
     ((C6_loading_failures (FileLoader.mk []) ("mem://x".toList) 0 []).1 rfl),
   ((C6_loading_failures (FileLoader.mk [("file".toList, fun _ => .ok [])])
       ("e".toList) 0 []).2.1 _ rfl).1 rfl⟩

/-! ### Claim C7 — splicing preserves the parent-before-child order -/

theorem properInside_shift_iff (line k : Nat) (hk : 1 ≤ k) (a b : Segment) :
    properInside
      ⟨shiftBound line k a.start_line, shiftBound line k a.end_line, a.original_file⟩
      ⟨shiftBound line k b.start_line, shiftBound line k b.end_line, b.original_file⟩
    ↔ properInside a b := by
  simp only [properInside, Segment.is_inside, Bool.and_eq_true, decide_eq_true_eq]
  unfold shiftBound
  split_ifs <;> omega

theorem properInside_add_iff (line : Nat) (a b : Segment) :
    properInside
      ⟨a.start_line + line, a.end_line + line, a.original_file⟩
      ⟨b.start_line + line, b.end_line + line, b.original_file⟩
    ↔ properInside a b := by
  simp only [properInside, Segment.is_inside, Bool.and_eq_true, decide_eq_true_eq]
  omega

theorem not_properInside_shift_add (line k : Nat) (hk : 1 ≤ k) (a c : Segment)
    (ha : a.start_line < a.end_line) (hc : c.end_line ≤ k) :
    ¬ properInside
      ⟨shiftBound line k a.start_line, shiftBound line k a.end_line, a.original_file⟩
      ⟨c.start_line + line, c.end_line + line, c.original_file⟩ := by
  simp only [properInside, Segment.is_inside, Bool.and_eq_true, decide_eq_true_eq]
  unfold shiftBound
  split_ifs <;> omega

/-- C7: at a valid line of a well-formed buffer (nonempty segments in
parent-before-child order) spliced with a well-formed nested buffer
(nonempty, its segments within its line range and ordered),
`replace_line_with_includes` replaces the line by the nested lines,
adjusts every existing segment bound strictly greater than `line` by the
nested line count minus one, appends the nested segments shifted by
`+line` after all existing segments, and the parent-before-child order
still holds for the result. -/
theorem C7_splice_preserves_order (inc nested : FileIncludes) (line : Nat)
    (hk : 1 ≤ nested.lines.length)
    (hline : line < inc.lines.length)
    (h1 : ∀ s ∈ inc.segments, s.start_line < s.end_line)
    (h2 : ∀ c ∈ nested.segments, c.end_line ≤ nested.lines.length)
    (h3 : ChildAfterParent inc.segments)
    (h4 : ChildAfterParent nested.segments) :
    (inc.replace_line_with_includes line nested).lines
      = inc.lines.take line ++ nested.lines ++ inc.lines.drop (line + 1) ∧
    (inc.replace_line_with_includes line nested).segments
      = inc.segments.map (fun s =>
          ⟨shiftBound line nested.lines.length s.start_line,
           shiftBound line nested.lines.length s.end_line, s.original_file⟩)
        ++ nested.segments.map (fun s =>
          ⟨s.start_line + line, s.end_line + line, s.original_file⟩) ∧
    ChildAfterParent (inc.replace_line_with_includes line nested).segments := by
  refine ⟨?_, rfl, ?_⟩
  · show insertSeq (removeAt inc.lines line) line nested.lines = _
    rw [removeAt_eq_splice inc.lines line hline]
    have hA : (inc.lines.take line).length = line := by
      rw [List.length_take]; omega
    calc insertSeq (inc.lines.take line ++ inc.lines.drop (line + 1)) line nested.lines
        = insertSeq (inc.lines.take line ++ inc.lines.drop (line + 1))
            (inc.lines.take line).length nested.lines := by rw [hA]
      _ = _ := insertSeq_append _ _ _
  · show ChildAfterParent
      (inc.segments.map (fun s =>
          ⟨shiftBound line nested.lines.length s.start_line,
           shiftBound line nested.lines.length s.end_line, s.original_file⟩)
        ++ nested.segments.map (fun s =>
          ⟨s.start_line + line, s.end_line + line, s.original_file⟩))
    intro i j hp
    rw [List.get_eq_getElem, List.get_eq_getElem] at hp
    have hi := i.isLt
    have hj := j.isLt
    simp only [List.length_append, List.length_map] at hi hj
    by_cases hin : (i : Nat) < inc.segments.length
    · by_cases hjn : (j : Nat) < inc.segments.length
      · rw [List.getElem_append_left (by simpa using hin),
            List.getElem_append_left (by simpa using hjn),
            List.getElem_map, List.getElem_map] at hp
        have hpp := (properInside_shift_iff line nested.lines.length hk _ _).mp hp
        have := h3 ⟨i, hin⟩ ⟨j, hjn⟩ (by
          rw [List.get_eq_getElem, List.get_eq_getElem]; exact hpp)
        exact this
      · push_neg at hjn
        rw [List.getElem_append_left (by simpa using hin),
            List.getElem_append_right (by simpa using hjn),
            List.getElem_map, List.getElem_map] at hp
        exact absurd hp (not_properInside_shift_add line nested.lines.length hk _ _
          (h1 _ (List.getElem_mem _))
          (h2 _ (List.getElem_mem _)))
    · push_neg at hin
      by_cases hjn : (j : Nat) < inc.segments.length
      · omega
      · push_neg at hjn
        rw [List.getElem_append_right (by simpa using hin),
            List.getElem_append_right (by simpa using hjn),
            List.getElem_map, List.getElem_map] at hp
        have hpp := (properInside_add_iff line _ _).mp hp
        have := h4 ⟨(i : Nat) - inc.segments.length, by omega⟩
          ⟨(j : Nat) - inc.segments.length, by omega⟩ (by
          rw [List.get_eq_getElem, List.get_eq_getElem]
          convert hpp using 2 <;> simp [List.length_map])
        simp only at this
        omega

/-- Witness for C7: splicing the 2-line `util` into the 3-line `main` at
line 1. -/
theorem C7_splice_preserves_order_witness :
    ((FileIncludes.new ("m0\nmid\nm2".toList) ("main".toList)).replace_line_with_includes
        1 (FileIncludes.new ("u0\nu1".toList) ("util".toList))).segments
      = [⟨0, 4, "main".toList⟩, ⟨1, 3, "util".toList⟩] ∧
    ChildAfterParent
      ((FileIncludes.new ("m0\nmid\nm2".toList) ("main".toList)).replace_line_with_includes
        1 (FileIncludes.new ("u0\nu1".toList) ("util".toList))).segments := by
  have h := C7_splice_preserves_order
    (FileIncludes.new ("m0\nmid\nm2".toList) ("main".toList))
    (FileIncludes.new ("u0\nu1".toList) ("util".toList)) 1
    (by decide) (by decide) (by decide) (by decide) (by decide) (by decide)
  exact ⟨h.2.1.trans (by decide), h.2.2⟩

/-! ### Claim C10 — rendering and re-parsing a Path is the identity -/

theorem mem_splitOnPred_no_sep (p : Char → Bool) (s : Str) :
    ∀ piece ∈ splitOnPred p s, ∀ c ∈ piece, p c = false := by
  induction s with
  | nil =>
    intro piece hp c hc
    simp only [splitOnPred, List.mem_singleton] at hp
    subst hp
    simp at hc
  | cons x xs ih =>
    intro piece hp c hc
    by_cases hx : p x
    · simp only [splitOnPred, if_pos hx, List.mem_cons] at hp
      rcases hp with hp | hp
      · subst hp; simp at hc
      · exact ih piece hp c hc
    · rcases hs : splitOnPred p xs with _ | ⟨h1, t1⟩
      · exact absurd hs (splitOnPred_ne_nil _ _)
      · have hstep : splitOnPred p (x :: xs) = (x :: h1) :: t1 := by
          simp [splitOnPred, hx, hs]
        rw [hstep] at hp
        rcases List.mem_cons.mp hp with hp | hp
        · subst hp
          rcases List.mem_cons.mp hc with hc | hc
          · subst hc; simpa using hx
          · exact ih h1 (by rw [hs]; exact List.mem_cons_self _ _) c hc
        · exact ih piece (by rw [hs]; exact List.mem_cons_of_mem _ hp) c hc

theorem splitOnPred_no_sep (p : Char → Bool) (piece : Str)
    (h : ∀ c ∈ piece, p c = false) : splitOnPred p piece = [piece] := by
  induction piece with
  | nil => rfl
  | cons x xs ih =>
    have hx : p x = false := h x (by simp)
    have hs := ih (fun c hc => h c (by simp [hc]))
    simp [splitOnPred, hx, hs]

theorem splitOnPred_append_sep (p : Char → Bool) (piece rest : Str) (sep : Char)
    (h : ∀ c ∈ piece, p c = false) (hsep : p sep = true) :
    splitOnPred p (piece ++ sep :: rest) = piece :: splitOnPred p rest := by
  induction piece with
  | nil => simp [splitOnPred, hsep]
  | cons x xs ih =>
    have hx : p x = false := h x (by simp)
    have ihh := ih (fun c hc => h c (by simp [hc]))
    simp only [List.cons_append, splitOnPred, hx, List.append_eq]
    rw [ihh]
    simp

theorem splitOnPred_joinSep (p : Char → Bool) (sep : Char) (hsep : p sep = true) :
    ∀ comps : List Str, comps ≠ [] → (∀ c ∈ comps, ∀ ch ∈ c, p ch = false) →
    splitOnPred p (joinSep sep comps) = comps := by
  intro comps
  induction comps with
  | nil => intro h; exact absurd rfl h
  | cons c cs ih =>
    intro _ hc
    cases cs with
    | nil => simpa [joinSep] using splitOnPred_no_sep p c (hc c (by simp))
    | cons d t =>
      have hj : joinSep sep (c :: d :: t) = c ++ sep :: joinSep sep (d :: t) := rfl
      rw [hj, splitOnPred_append_sep p c _ sep (hc c (by simp)) hsep,
          ih (by simp) (fun x hx ch hch => hc x (by simp [hx]) ch hch)]

theorem drop_takeWhile_length (p : Char → Bool) (l : Str) :
    l.drop (l.takeWhile p).length = l.dropWhile p := by
  induction l with
  | nil => rfl
  | cons x xs ih =>
    by_cases hx : p x
    · simp [List.takeWhile_cons, List.dropWhile_cons, hx, ih]
    · simp [List.takeWhile_cons, List.dropWhile_cons, hx]

theorem dropWhile_body_no_scheme (c0 t0 : Str)
    (hc0 : ∀ ch ∈ c0, ch ≠ '/')
    (ht0 : t0 = [] ∨ ∃ t, t0 = '/' :: t ∧ t.head? ≠ some '/') :
    ∀ tail', (c0 ++ t0).dropWhile isWordChar ≠ ':' :: '/' :: '/' :: tail' := by
  induction c0 with
  | nil =>
    intro tail' hcontra
    rcases ht0 with h | ⟨t, ht, hh⟩
    · subst h; simp at hcontra
    · subst ht
      have hw : isWordChar '/' = false := by decide
      rw [List.nil_append, List.dropWhile_cons, hw] at hcontra
      simp at hcontra
  | cons x xs ih =>
    intro tail' hcontra
    rw [List.cons_append, List.dropWhile_cons] at hcontra
    by_cases hx : isWordChar x
    · rw [if_pos hx] at hcontra
      exact ih (fun ch hch => hc0 ch (by simp [hch])) tail' hcontra
    · rw [if_neg (by simpa using hx)] at hcontra
      have hrest : xs ++ t0 = '/' :: '/' :: tail' := (List.cons.inj hcontra).2
      cases xs with
      | cons y ys =>
        have hy : y ≠ '/' := hc0 y (by simp)
        exact hy (List.cons.inj hrest).1
      | nil =>
        rcases ht0 with h | ⟨t, ht, hh⟩
        · subst h; simp at hrest
        · subst ht
          rw [List.nil_append] at hrest
          have : t = '/' :: tail' := (List.cons.inj hrest).2
          exact hh (by rw [this]; rfl)

theorem getProtocolAndPath_eq_none_of (path : Str)
    (h : ∀ tail', path.dropWhile isWordChar ≠ ':' :: '/' :: '/' :: tail') :
    getProtocolAndPath path = (none, path) := by
  unfold getProtocolAndPath
  by_cases hr : (path.takeWhile isWordChar).isEmpty
  · simp [hr]
  · rw [if_neg (by simpa using hr), drop_takeWhile_length]
    split
    · rename_i tail heq
      exact absurd heq (h tail)
    · rfl

theorem getProtocolAndPath_joinSep_none (comps : List Str)
    (hc : ∀ c ∈ comps, c ≠ [] ∧ ∀ ch ∈ c, ch ≠ '/') :
    getProtocolAndPath (joinSep '/' comps) = (none, joinSep '/' comps) := by
  apply getProtocolAndPath_eq_none_of
  intro tail'
  cases comps with
  | nil => simp [joinSep]
  | cons c0 rest =>
    cases rest with
    | nil =>
      have := dropWhile_body_no_scheme c0 [] ((hc c0 (by simp)).2) (Or.inl rfl) tail'
      simpa [joinSep] using this
    | cons d t =>
      have hdne : d ≠ [] := (hc d (by simp)).1
      obtain ⟨dh, dt, hdd⟩ := List.exists_cons_of_ne_nil hdne
      have hdh : dh ≠ '/' := (hc d (by simp)).2 dh (by simp [hdd])
      have hhead : (joinSep '/' (d :: t)).head? ≠ some '/' := by
        cases t with
        | nil => simp only [joinSep, hdd, List.head?_cons]; simpa using hdh
        | cons e es =>
          have : joinSep '/' (d :: e :: es) = d ++ '/' :: joinSep '/' (e :: es) := rfl
          rw [this, hdd, List.cons_append, List.head?_cons]
          simpa using hdh
      have := dropWhile_body_no_scheme c0 ('/' :: joinSep '/' (d :: t))
        ((hc c0 (by simp)).2) (Or.inr ⟨joinSep '/' (d :: t), rfl, hhead⟩) tail'
      simpa [joinSep] using this

theorem takeWhile_mem_pred (p : Char → Bool) (l : Str) :
    ∀ c ∈ l.takeWhile p, p c = true := by
  induction l with
  | nil => simp
  | cons x xs ih =>
    intro c hc
    by_cases hx : p x
    · rw [List.takeWhile_cons, if_pos hx] at hc
      rcases List.mem_cons.mp hc with hc | hc
      · subst hc; exact hx
      · exact ih c hc
    · rw [List.takeWhile_cons, if_neg (by simpa using hx)] at hc
      simp at hc

theorem takeWhile_word_run (pr rest : Str)
    (hw : ∀ c ∈ pr, isWordChar c = true) :
    (pr ++ ':' :: rest).takeWhile isWordChar = pr := by
  induction pr with
  | nil =>
    have : isWordChar ':' = false := by decide
    simp [List.takeWhile_cons, this]
  | cons x xs ih =>
    rw [List.cons_append, List.takeWhile_cons, if_pos (hw x (by simp)),
        ih (fun c hc => hw c (by simp [hc]))]

theorem getProtocolAndPath_scheme (pr body : Str) (hne : pr ≠ [])
    (hw : ∀ c ∈ pr, isWordChar c = true) :
    getProtocolAndPath (pr ++ ':' :: '/' :: '/' :: body) = (some pr, body) := by
  unfold getProtocolAndPath
  rw [takeWhile_word_run pr _ hw,
      if_neg (by simpa [List.isEmpty_iff] using hne), List.drop_left]
  rfl

theorem getProtocolAndPath_protocol_spec (s pr : Str)
    (h : (getProtocolAndPath s).1 = some pr) :
    pr ≠ [] ∧ ∀ c ∈ pr, isWordChar c = true := by
  unfold getProtocolAndPath at h
  by_cases hr : (s.takeWhile isWordChar).isEmpty
  · simp [hr] at h
  · rw [if_neg (by simpa using hr)] at h
    split at h
    · simp only [Prod.fst, Option.some.injEq] at h
      subst h
      exact ⟨by simpa [List.isEmpty_iff] using hr, takeWhile_mem_pred _ _⟩
    · simp at h

theorem foldl_pushpop_mem (l : List Str) (acc : List Str) (x : Str)
    (hx : x ∈ l.foldl
      (fun acc c => if c = ['.', '.'] then acc.dropLast else acc ++ [c]) acc) :
    x ∈ acc ∨ (x ∈ l ∧ x ≠ ['.', '.']) := by
  induction l generalizing acc with
  | nil => left; exact hx
  | cons c cs ih =>
    simp only [List.foldl_cons] at hx
    rcases ih _ hx with h | h
    · by_cases hc : c = ['.', '.']
      · rw [if_pos hc] at h
        exact Or.inl (List.dropLast_subset _ h)
      · rw [if_neg hc] at h
        rcases List.mem_append.mp h with h | h
        · exact Or.inl h
        · right
          rw [List.mem_singleton] at h
          subst h
          exact ⟨by simp, hc⟩
    · exact Or.inr ⟨by simp [h.1], h.2⟩

theorem foldl_pushpop_id (l : List Str) (h : ∀ c ∈ l, c ≠ ['.', '.']) :
    ∀ acc, l.foldl
      (fun acc c => if c = ['.', '.'] then acc.dropLast else acc ++ [c]) acc
      = acc ++ l := by
  induction l with
  | nil => intro acc; simp
  | cons c cs ih =>
    intro acc
    have hc : c ≠ ['.', '.'] := h c (by simp)
    simp only [List.foldl_cons, if_neg hc]
    rw [ih (fun x hx => h x (by simp [hx]))]
    simp

theorem path_components_spec (s : Str) :
    ∀ c ∈ (Path.new s).components,
      c ≠ [] ∧ c ≠ ['.'] ∧ c ≠ ['.', '.'] ∧ ∀ ch ∈ c, ch ≠ '/' ∧ ch ≠ '\\' := by
  intro c hc
  have hm := foldl_pushpop_mem _ [] c hc
  rcases hm with hm | ⟨hm, hdd⟩
  · simp at hm
  · have hf := List.mem_filter.mp hm
    have hcond := hf.2
    simp only [Bool.and_eq_true, decide_eq_true_eq] at hcond
    refine ⟨?_, ?_, hdd, ?_⟩
    · intro hnil; subst hnil; simp at hcond
    · exact hcond.2
    · intro ch hch
      have := mem_splitOnPred_no_sep _ _ c hf.1 ch hch
      simp only [Bool.or_eq_false_iff, decide_eq_false_iff_not] at this
      exact ⟨this.2, this.1⟩

theorem path_new_clean_render (comps : List Str)
    (h : ∀ c ∈ comps,
      c ≠ [] ∧ c ≠ ['.'] ∧ c ≠ ['.', '.'] ∧ ∀ ch ∈ c, ch ≠ '/' ∧ ch ≠ '\\') :
    Path.new (joinSep '/' comps) = ⟨none, comps⟩ := by
  have hpp := getProtocolAndPath_joinSep_none comps
    (fun c hc => ⟨(h c hc).1, fun ch hch => ((h c hc).2.2.2 ch hch).1⟩)
  cases comps with
  | nil => rfl
  | cons c0 rest =>
    unfold Path.new
    rw [hpp]
    simp only
    rw [splitOnPred_joinSep _ '/' (by decide) (c0 :: rest) (by simp)
        (fun x hx ch hch => by
          simp only [Bool.or_eq_false_iff, decide_eq_false_iff_not]
          exact ⟨((h x hx).2.2.2 ch hch).2, ((h x hx).2.2.2 ch hch).1⟩)]
    rw [List.filter_eq_self.mpr (fun c hcm => by
      simp only [Bool.and_eq_true, decide_eq_true_eq]
      refine ⟨?_, (h c hcm).2.1⟩
      have := (h c hcm).1
      cases c with
      | nil => exact absurd rfl this
      | cons a b => simp)]
    rw [foldl_pushpop_id _ (fun c hcm => (h c hcm).2.2.1) []]
    simp

theorem path_new_scheme_render (pr : Str) (comps : List Str)
    (hne : pr ≠ []) (hw : ∀ c ∈ pr, isWordChar c = true)
    (h : ∀ c ∈ comps,
      c ≠ [] ∧ c ≠ ['.'] ∧ c ≠ ['.', '.'] ∧ ∀ ch ∈ c, ch ≠ '/' ∧ ch ≠ '\\') :
    Path.new (pr ++ ':' :: '/' :: '/' :: joinSep '/' comps) = ⟨some pr, comps⟩ := by
  have hpp := getProtocolAndPath_scheme pr (joinSep '/' comps) hne hw
  unfold Path.new
  rw [hpp]
  simp only
  have hbody : (splitOnPred (fun c => c = '\\' || c = '/') (joinSep '/' comps)).filter
      (fun c => c.length > 0 && c ≠ ['.']) = comps := by
    cases comps with
    | nil => rfl
    | cons c0 rest =>
      rw [splitOnPred_joinSep _ '/' (by decide) (c0 :: rest) (by simp)
          (fun x hx ch hch => by
            simp only [Bool.or_eq_false_iff, decide_eq_false_iff_not]
            exact ⟨((h x hx).2.2.2 ch hch).2, ((h x hx).2.2.2 ch hch).1⟩)]
      exact List.filter_eq_self.mpr (fun c hcm => by
        simp only [Bool.and_eq_true, decide_eq_true_eq]
        refine ⟨?_, (h c hcm).2.1⟩
        have := (h c hcm).1
        cases c with
        | nil => exact absurd rfl this
        | cons a b => simp)
  rw [hbody, foldl_pushpop_id _ (fun c hcm => (h c hcm).2.2.1) []]
  simp

/-- C10: rendering any parsed path and parsing it again gives the same
protocol and components, because constructed component lists never
contain empty strings, `.` or `..` (nor any slash), and a constructed
protocol is a nonempty word-character run. -/
theorem C10_render_reparse_roundtrip (s : Str) :
    Path.new ((Path.new s).render) = Path.new s ∧
    ∀ c ∈ (Path.new s).components, c ≠ [] ∧ c ≠ ['.'] ∧ c ≠ ['.', '.'] := by
  have hcomp := path_components_spec s
  constructor
  · rcases hP : Path.new s with ⟨proto, comps⟩
    have hcomp' : ∀ c ∈ comps,
        c ≠ [] ∧ c ≠ ['.'] ∧ c ≠ ['.', '.'] ∧ ∀ ch ∈ c, ch ≠ '/' ∧ ch ≠ '\\' := by
      rw [hP] at hcomp
      exact hcomp
    cases proto with
    | none => exact path_new_clean_render comps hcomp'
    | some pr =>
      have hproto : (getProtocolAndPath s).1 = some pr := by
        have : (Path.new s).protocol = some pr := by rw [hP]
        exact this
      obtain ⟨hne, hw⟩ := getProtocolAndPath_protocol_spec s pr hproto
      exact path_new_scheme_render pr comps hne hw hcomp'
  · exact fun c hc => ⟨(hcomp c hc).1, (hcomp c hc).2.1, (hcomp c hc).2.2.1⟩

end ShaderLoader
